import Mathlib

/-!
Verification of the mcp-ty JSON-RPC/LSP client core.

This file gives a shallow embedding of the edit-application algorithm
(`src/mcp_ty/server.py`), the message framer, the request/response
correlation machinery and the notification router
(`src/mcp_ty/lsp_client.py`), and proves or refutes the frozen claims
about them.

Modelling conventions:
* Python `str` values (document texts, wire bytes) are modelled as
  `List Char`; a byte on the wire is one `Char` with `toNat < 256`.
* Python dicts are modelled as insertion-ordered association lists
  (their keys are unique) or, for the diagnostics cache, as a function.
* `asyncio` control flow is modelled as explicit state passing: each
  coroutine's effect on the client state is a pure state transformer,
  and the order of its observable actions is recorded as an event list.
-/

/-! ## Document / edit data model (`lsp_client.py`, dataclasses) -/

/-- LSP `Position` (0-based line and character), from the `Position` dataclass. -/
structure Position where
  line : Nat
  character : Nat
deriving DecidableEq

/-- LSP `Range`, from the `Range` dataclass.  The Python field `end` is a Lean
keyword and is called `endPos` here. -/
structure Range where
  start : Position
  endPos : Position
deriving DecidableEq

/-- LSP `TextEdit`, from the `TextEdit` dataclass: a ranged replacement.
`new_text` is called `newText`. -/
structure TextEdit where
  range : Range
  newText : List Char
deriving DecidableEq

/-- LSP `Diagnostic`, from the `Diagnostic` dataclass.  `code` may be a string
or an int in Python (`str | int | None`). -/
structure Diagnostic where
  range : Range
  message : String
  severity : Option Int
  source : Option String
  code : Option (String ⊕ Int)
deriving DecidableEq

/-- `TextDocumentEdit` dataclass: a document identifier plus its edit list. -/
structure TextDocumentEdit where
  uri : String
  edits : List TextEdit
deriving DecidableEq

/-- `WorkspaceEdit` dataclass: `changes` is the dict `uri -> edits` (modelled
as an insertion-ordered association list) and `document_changes` the parallel
list of `TextDocumentEdit`s. -/
structure WorkspaceEdit where
  changes : List (String × List TextEdit)
  document_changes : List TextDocumentEdit
deriving DecidableEq

/-! ## Edit application (`server.py`, `_apply_text_edit` / `_apply_edits_to_file`) -/

/-- The line-boundary characters of Python `str.splitlines`. -/
def isLineBreak (c : Char) : Bool :=
  c == '\n' || c == '\r' || c.toNat == 0x0b || c.toNat == 0x0c ||
  c.toNat == 0x1c || c.toNat == 0x1d || c.toNat == 0x1e ||
  c.toNat == 0x85 || c.toNat == 0x2028 || c.toNat == 0x2029

/-- Worker for `splitlines`: a state machine over the characters.  `acc`
holds the current line so far in reverse; `pending` records that the previous
character was a `'\r'` whose line break is still open, so that a directly
following `'\n'` joins it into one `"\r\n"` terminator, as Python groups
them.  `"\r\n"` counts as a single boundary; every other boundary character
ends a line by itself; terminators are kept (`keepends=True`). -/
def splitlinesAux : List Char → List Char → Bool → List (List Char)
  | [], acc, pending =>
      if pending then [acc.reverse ++ ['\r']]
      else if acc.isEmpty then [] else [acc.reverse]
  | c :: rest, acc, pending =>
      if pending then
        if c = '\n' then (acc.reverse ++ ['\r', '\n']) :: splitlinesAux rest [] false
        else if c = '\r' then (acc.reverse ++ ['\r']) :: splitlinesAux rest [] true
        else if isLineBreak c then
          (acc.reverse ++ ['\r']) :: [c] :: splitlinesAux rest [] false
        else (acc.reverse ++ ['\r']) :: splitlinesAux rest [c] false
      else
        if c = '\r' then splitlinesAux rest acc true
        else if isLineBreak c then (acc.reverse ++ [c]) :: splitlinesAux rest [] false
        else splitlinesAux rest (c :: acc) false

/-- Python `content.splitlines(keepends=True)` on a text given as chars. -/
def splitlines (content : List Char) : List (List Char) :=
  splitlinesAux content [] false

/-- The `lines` value used by `_apply_text_edit`: `splitlines`, but
`if not lines: lines = [""]`. -/
def editLines (content : List Char) : List (List Char) :=
  if (splitlines content).isEmpty then [[]] else splitlines content

/-- `before_text` of `_apply_text_edit`: the joined lines before `start.line`,
plus `lines[start.line][:start.character]` when `start.line` is in range
(Python slicing clamps `start.character`). -/
def beforeText (lines : List (List Char)) (p : Position) : List Char :=
  (lines.take p.line).flatten ++
    (if p.line < lines.length then (lines.getD p.line []).take p.character else [])

/-- `after_text` of `_apply_text_edit`: when `end.line` is in range,
`lines[end.line][end.character:]` plus the joined lines after it; otherwise
empty. -/
def afterText (lines : List (List Char)) (p : Position) : List Char :=
  if p.line < lines.length then
    (lines.getD p.line []).drop p.character ++ (lines.drop (p.line + 1)).flatten
  else []

/-- `_apply_text_edit(content, edit)`. -/
def applyTextEdit (content : List Char) (edit : TextEdit) : List Char :=
  beforeText (editLines content) edit.range.start ++ edit.newText ++
    afterText (editLines content) edit.range.endPos

/-- The sort key of `_apply_edits_to_file`:
`(e.range.start.line, e.range.start.character)`. -/
def editKey (e : TextEdit) : Nat × Nat :=
  (e.range.start.line, e.range.start.character)

/-- Lexicographic order on sort keys, as Python compares tuples. -/
def keyLe (a b : Nat × Nat) : Prop :=
  a.1 < b.1 ∨ (a.1 = b.1 ∧ a.2 ≤ b.2)

instance instDecKeyLe : ∀ a b, Decidable (keyLe a b) := fun a b => by
  unfold keyLe; exact inferInstance

/-- One insertion step of a stable descending insertion sort: `e` goes in
front of the first element whose key is `≤` its own. -/
def insertDesc (e : TextEdit) : List TextEdit → List TextEdit
  | [] => [e]
  | f :: fs => if keyLe (editKey f) (editKey e) then e :: f :: fs else f :: insertDesc e fs

/-- `sorted(edits, key=..., reverse=True)`: a stable sort, descending on the
key; elements with equal keys keep their supplied order. -/
def sortEditsDesc : List TextEdit → List TextEdit
  | [] => []
  | e :: es => insertDesc e (sortEditsDesc es)

/-- `_apply_edits_to_file`, with the file read modelled by the `content`
parameter (the function reads the file, sorts descending, then folds
`_apply_text_edit` over the sorted edits and returns the new content). -/
def applyEditsToContent (content : List Char) (edits : List TextEdit) : List Char :=
  (sortEditsDesc edits).foldl applyTextEdit content

/-- Character offset of an LSP position inside a text, clamped at the line
length and at the text end exactly as Python slicing clamps. -/
def posOffset (content : List Char) (p : Position) : Nat :=
  ((splitlines content).take p.line).flatten.length +
    min p.character ((splitlines content).getD p.line []).length

/-- Reference single-edit splice in the spec's words (spec section 4.5): the
unmodified text before the edit's start position, then the replacement text,
then the unmodified text after the edit's end position. -/
def spliceEdit (content : List Char) (e : TextEdit) : List Char :=
  content.take (posOffset content e.range.start) ++ e.newText ++
    content.drop (posOffset content e.range.endPos)

/-- Reference algorithm of the spec (section 4.5): sort the edit set by
(start line, start character) descending, then fold the splice over the
sorted edits. -/
def referenceApplyEdits (content : List Char) (edits : List TextEdit) : List Char :=
  (sortEditsDesc edits).foldl spliceEdit content

/-- Lexicographic order on positions (document order). -/
def posLe (p q : Position) : Prop :=
  p.line < q.line ∨ (p.line = q.line ∧ p.character ≤ q.character)

instance instDecPosLe : ∀ p q, Decidable (posLe p q) := fun p q => by
  unfold posLe; exact inferInstance

/-- Two edits do not overlap when, as half-open ranges in document order, one
ends no later than the other starts. -/
def disjointEdits (e f : TextEdit) : Prop :=
  posLe e.range.endPos f.range.start ∨ posLe f.range.endPos e.range.start

instance instDecDisjointEdits : ∀ e f, Decidable (disjointEdits e f) := fun e f => by
  unfold disjointEdits; exact inferInstance

/-! ## Message framing (`lsp_client.py`, `_write_message` / `_read_message` /
`_read_responses`) -/

/-- The decimal digit characters, for rendering a `Nat` the way Python's
f-string renders an `int`. -/
def digitChar : Nat → Char
  | 0 => '0' | 1 => '1' | 2 => '2' | 3 => '3' | 4 => '4'
  | 5 => '5' | 6 => '6' | 7 => '7' | 8 => '8' | _ => '9'

/-- Digits of a positive `n` in base 10, most significant first, prepended to
`acc`. -/
def natToDecimalAux (n : Nat) (acc : List Char) : List Char :=
  if h : n = 0 then acc
  else natToDecimalAux (n / 10) (digitChar (n % 10) :: acc)
termination_by n
decreasing_by exact Nat.div_lt_self (Nat.pos_of_ne_zero h) (by norm_num)

/-- Decimal rendering of a `Nat` (Python `str(n)` for `n ≥ 0`). -/
def natToDecimal (n : Nat) : List Char :=
  if n = 0 then ['0'] else natToDecimalAux n []

/-- Number of decimal digits of `n` (0 for 0). -/
def numDigits (n : Nat) : Nat :=
  if h : n = 0 then 0 else numDigits (n / 10) + 1
termination_by n
decreasing_by exact Nat.div_lt_self (Nat.pos_of_ne_zero h) (by norm_num)

/-- Digit-string accumulator of Python `int(s)` restricted to plain decimal
digits; any other character raises, modelled as `none`. -/
def parseDecimalAux : List Char → Nat → Option Nat
  | [], acc => some acc
  | c :: cs, acc =>
      if 48 ≤ c.toNat ∧ c.toNat ≤ 57 then parseDecimalAux cs (acc * 10 + (c.toNat - 48))
      else none

/-- Python `int(s)` on an already-stripped string, for the non-negative
decimal notations the framer emits; the empty string raises. -/
def parseDecimal : List Char → Option Nat
  | [] => none
  | c :: cs => parseDecimalAux (c :: cs) 0

/-- The whitespace characters removed by Python `str.strip()` that can occur
in a header line. -/
def isPySpace (c : Char) : Bool :=
  c.toNat == 32 || c.toNat == 9 || c.toNat == 10 || c.toNat == 13 ||
  c.toNat == 0x0b || c.toNat == 0x0c

/-- Python `str.strip()`. -/
def strip (s : List Char) : List Char :=
  ((s.dropWhile isPySpace).reverse.dropWhile isPySpace).reverse

/-- Python `s.lower().startswith(pat)` for a lowercase `pat`:
compare the first `pat.length` lowercased characters. -/
def lowerTakeEq (s pat : List Char) : Bool :=
  (s.map Char.toLower).take pat.length == pat

/-- Python `s.split(sep)` for a single-character separator. -/
def splitOnChar (sep : Char) : List Char → List (List Char)
  | [] => [[]]
  | c :: cs =>
      if c = sep then [] :: splitOnChar sep cs
      else
        match splitOnChar sep cs with
        | [] => [[c]]
        | x :: xs => (c :: x) :: xs

/-- The characters of the header name `"Content-Length"`. -/
def clName : List Char :=
  ['C', 'o', 'n', 't', 'e', 'n', 't', '-', 'L', 'e', 'n', 'g', 't', 'h']

/-- The characters of the header text `"Content-Length: "` written by
`_write_message`. -/
def clHeader : List Char := clName ++ [':', ' ']

/-- The characters of the lowercase pattern `"content-length:"` tested by
`_read_message`. -/
def clPattern : List Char :=
  ['c', 'o', 'n', 't', 'e', 'n', 't', '-', 'l', 'e', 'n', 'g', 't', 'h', ':']

/-- What one header line does to the header-reading loop of `_read_message`. -/
inductive LineStep where
  | fail
  | brk (cl : Nat)
  | next (cl : Nat)

/-- Processing of one header line (terminator included when present):
`line.decode("ascii")` fails on a byte `≥ 128`; a blank stripped line breaks
the loop; a `Content-Length` header (case-insensitive) replaces the current
length via `int(line_str.split(":")[1].strip())`, whose failure raises; any
other header is ignored. -/
def processHeaderLine (line : List Char) (cl : Nat) : LineStep :=
  if line.any (fun c => 128 ≤ c.toNat) then .fail
  else if (strip line).isEmpty then .brk cl
  else if lowerTakeEq (strip line) clPattern then
    match parseDecimal (strip ((splitOnChar ':' (strip line)).getD 1 [])) with
    | some n => .next n
    | none => .fail
  else .next cl

/-- Outcome of the header-reading loop of `_read_message`. -/
inductive HeaderResult where
  | eof
  | fail
  | ok (cl : Nat) (rest : List Char)
deriving DecidableEq

/-- The header-reading loop of `_read_message`, fused with `readline`: `acc`
holds the current line so far in reverse, `cl` the `content_length` variable
(initially 0).  `readline` at end of stream yields the partial line, then an
empty read, which `_read_message` turns into `None` (here `.eof`). -/
def readHeadersSM : List Char → List Char → Nat → HeaderResult
  | [], acc, cl =>
      if acc.isEmpty then .eof
      else
        match processHeaderLine acc.reverse cl with
        | .fail => .fail
        | .brk n => .ok n []
        | .next _ => .eof
  | c :: cs, acc, cl =>
      if c = '\n' then
        match processHeaderLine (acc.reverse ++ ['\n']) cl with
        | .fail => .fail
        | .brk n => .ok n cs
        | .next n => readHeadersSM cs [] n
      else readHeadersSM cs (c :: acc) cl

/-- Result of one `_read_message` call as its caller `_read_responses`
observes it: a decoded message plus the unread rest of the stream, a `None`
return, or a raised exception. -/
inductive ReadResult (M : Type) where
  | msg (m : M) (rest : List Char)
  | noMsg
  | fail
deriving DecidableEq

/-- `_read_message` over a byte stream: read headers until a blank line
(`None` on end of stream), then `None` when the declared length is 0,
otherwise read exactly `content_length` bytes (`readexactly` raises when the
stream is too short) and parse them (`json.loads`, whose failure raises).
The JSON codec is a parameter `loads`. -/
def readMessage {M : Type} (loads : List Char → Option M) (stream : List Char) :
    ReadResult M :=
  match readHeadersSM stream [] 0 with
  | .eof => .noMsg
  | .fail => .fail
  | .ok cl rest =>
      if cl = 0 then .noMsg
      else if rest.length < cl then .fail
      else
        match loads (rest.take cl) with
        | some m => .msg m (rest.drop cl)
        | none => .fail

/-- The `_read_responses` loop: read one message at a time and dispatch it
(here: collect it); a `None` return breaks the loop, and any raised exception
is caught and breaks the loop.  `fuel` bounds the number of iterations; the
loop body consumes part of the stream each round, so any `fuel` larger than
the stream length is enough. -/
def readLoop {M : Type} (loads : List Char → Option M) : Nat → List Char → List M
  | 0, _ => []
  | fuel + 1, stream =>
      match readMessage loads stream with
      | .msg m rest => m :: readLoop loads fuel rest
      | _ => []

/-- `_write_message`: the UTF-8 body prefixed by
`"Content-Length: <len(body)>\r\n\r\n"`; the JSON codec is a parameter
`dumps`. -/
def writeMessage {M : Type} (dumps : M → List Char) (m : M) : List Char :=
  clHeader ++ natToDecimal (dumps m).length ++ ['\r', '\n', '\r', '\n'] ++ dumps m

/-! ## Protocol session state (`TyLspClient`) -/

/-- Result of a request as its caller sees it: `future.set_result` with the
response's `result` field (`None` when absent), `future.set_exception` with
the server error, or the raised `TimeoutError`. -/
inductive Outcome where
  | result (v : Option String)
  | error (e : String)
  | timeout
deriving DecidableEq

/-- An inbound JSON-RPC message as `_handle_message` inspects it: whether an
`"id"` / `"method"` / `"error"` key is present (and its payload), and the
value of `message.get("result")`. -/
structure InMessage where
  hasId : Option Nat
  hasMethod : Option String
  error : Option String
  result : Option String
deriving DecidableEq

/-- The mutable session state relevant to the correlation claims:
`_request_id`, `_pending_requests` (id, `future.done()`) as an
insertion-ordered association list with unique keys, the outcomes delivered
to waiting callers so far, and `_initialized`. -/
structure SessionState where
  requestId : Nat
  pending : List (Nat × Bool)
  resolved : List (Nat × Outcome)
  initialized : Bool
deriving DecidableEq

/-- The state set up by `TyLspClient.__init__`. -/
def initialSession : SessionState :=
  { requestId := 0, pending := [], resolved := [], initialized := false }

/-- Observable actions of `_send_request` in program order. -/
inductive Event where
  | insertPending (id : Nat)
  | writeFrame (id : Nat) (mthd : String)
deriving DecidableEq

/-- The send half of `_send_request`: `request_id = self._next_id()` (the
counter is incremented then returned), a fresh not-done future is stored in
`_pending_requests[request_id]`, and only then is the framed request written.
Returns the new state, the assigned id, and the actions in program order. -/
def sendRequest (st : SessionState) (mthd : String) : SessionState × Nat × List Event :=
  ({ st with
      requestId := st.requestId + 1,
      pending := st.pending ++ [(st.requestId + 1, false)] },
   st.requestId + 1,
   [Event.insertPending (st.requestId + 1), Event.writeFrame (st.requestId + 1) mthd])

/-- Final state, assigned ids and combined action trace of a sequence of
`_send_request` calls. -/
structure SendBatch where
  final : SessionState
  ids : List Nat
  events : List Event
deriving DecidableEq

/-- Issue the given requests in order, collecting ids and actions. -/
def sendMany (st : SessionState) : List String → SendBatch
  | [] => { final := st, ids := [], events := [] }
  | mthd :: rest =>
      { final := (sendMany (sendRequest st mthd).1 rest).final,
        ids := (sendRequest st mthd).2.1 :: (sendMany (sendRequest st mthd).1 rest).ids,
        events := (sendRequest st mthd).2.2 ++ (sendMany (sendRequest st mthd).1 rest).events }

/-- The id a response message correlates on (`message["id"]`; only read when
present). -/
def msgId (m : InMessage) : Nat := m.hasId.getD 0

/-- How `_handle_message` fulfils a popped future: `set_exception` when the
message carries an `"error"` payload, else `set_result(message.get("result"))`. -/
def outcomeOf (m : InMessage) : Outcome :=
  match m.error with
  | some e => .error e
  | none => .result m.result

/-- The ids with a pending entry in the correlation table. -/
def pendingIds (st : SessionState) : List Nat := st.pending.map Prod.fst

/-- A response frame carrying `rid` and no method. -/
def responseMsg (rid : Nat) (err : Option String) (res : Option String) : InMessage :=
  { hasId := some rid, hasMethod := none, error := err, result := res }

/-- `_handle_message`: a frame with an `"id"` and no `"method"` pops the
matching pending entry (dict `pop`: the single entry with that key is
removed) and, if the popped future exists and is not done, fulfils it; a
frame with a `"method"` goes to `_handle_server_message`, which does not
touch this state; anything else is ignored. -/
def handleMessage (st : SessionState) (msg : InMessage) : SessionState :=
  match msg.hasId, msg.hasMethod with
  | some rid, none =>
      match st.pending.lookup rid with
      | some done =>
          if done then
            { st with pending := st.pending.filter (fun p => p.1 != rid) }
          else
            { st with
                pending := st.pending.filter (fun p => p.1 != rid),
                resolved := st.resolved ++ [(rid, outcomeOf msg)] }
      | none => st
  | _, _ => st

/-- The `except asyncio.TimeoutError` arm of `_send_request`: the entry is
popped from `_pending_requests` and a `TimeoutError` is raised to the
caller (recorded as the delivered outcome). -/
def timeoutRequest (st : SessionState) (rid : Nat) : SessionState :=
  { st with
      pending := st.pending.filter (fun p => p.1 != rid),
      resolved := st.resolved ++ [(rid, Outcome.timeout)] }

/-- `TyLspClient.stop` (lines 297-323): it sends a best-effort shutdown
exchange, cancels and awaits the reader task, terminates (then kills) the
process, and sets `_initialized = False` and `_process = None`.  It never
reads or writes `_pending_requests` and never fulfils a future, so its whole
effect on this state is the `_initialized` flag. -/
def stop (st : SessionState) : SessionState :=
  { st with initialized := false }

/-! ## Notification router (`_handle_server_message`) -/

/-- The diagnostics cache `self._diagnostics`, as a total map from URI to the
cached list (`{}` meaning `[]` everywhere). -/
def DiagCache : Type := String → List Diagnostic

/-- A server-initiated message as `_handle_server_message` dispatches on its
`method`: `textDocument/publishDiagnostics` with its decoded params,
`window/logMessage` with its level and text, or anything else. -/
inductive ServerNote where
  | publish (uri : String) (diags : List Diagnostic)
  | logMessage (level : Int) (text : String)
  | other (mthd : String)

/-- `_handle_server_message`: a publish notification assigns
`self._diagnostics[uri] = diagnostics`; a log message only logs; unknown
methods are dropped. -/
def handleServerMessage (cache : DiagCache) : ServerNote → DiagCache
  | .publish uri ds => fun u => if u = uri then ds else cache u
  | .logMessage _ _ => cache
  | .other _ => cache

/-! ## `WorkspaceEdit.get_all_edits` with Python aliasing made explicit -/

/-- Whether a key is present in an association list. -/
def keysMem (u : String) (l : List (String × List TextEdit)) : Bool :=
  l.any (fun p => p.1 == u)

/-- Append `es` to the list stored under `u`. -/
def updateAssoc (l : List (String × List TextEdit)) (u : String) (es : List TextEdit) :
    List (String × List TextEdit) :=
  l.map (fun p => if p.1 == u then (p.1, p.2 ++ es) else p)

/-- One loop iteration of `get_all_edits` over `(result, changes)`.
`result = dict(self.changes)` is a shallow copy, so the list under a key
that came from `changes` is the same object as `changes`' list; hence
`result[uri].extend(edits)` also mutates `changes[uri]` exactly when `uri`
is a key of `changes`.  A key first added by `result[uri] = list(edits)`
holds a fresh list, so extending it later leaves `changes` alone. -/
def gaeStep (acc : List (String × List TextEdit) × List (String × List TextEdit))
    (de : TextDocumentEdit) :
    List (String × List TextEdit) × List (String × List TextEdit) :=
  if keysMem de.uri acc.1 then
    (updateAssoc acc.1 de.uri de.edits,
     if keysMem de.uri acc.2 then updateAssoc acc.2 de.uri de.edits else acc.2)
  else
    (acc.1 ++ [(de.uri, de.edits)], acc.2)

/-- `WorkspaceEdit.get_all_edits`, returning both the computed per-URI view
and the state of the `WorkspaceEdit` after the call (explicit heap: the
shallow `dict(self.changes)` copy aliases the per-key lists). -/
def get_all_edits (w : WorkspaceEdit) :
    List (String × List TextEdit) × WorkspaceEdit :=
  ((w.document_changes.foldl gaeStep (w.changes, w.changes)).1,
   { changes := (w.document_changes.foldl gaeStep (w.changes, w.changes)).2,
     document_changes := w.document_changes })

/-- The action trace predicted for a run of `_send_request` calls starting
from request counter `k`: for each request in turn, the pending-table insert
immediately followed by the frame write, with ids `k+1, k+2, ...`. -/
def expectedTrace (k : Nat) : List String → List Event
  | [] => []
  | mthd :: rest =>
      Event.insertPending (k + 1) :: Event.writeFrame (k + 1) mthd ::
        expectedTrace (k + 1) rest

/-! # Theorems -/

/-! ## List helpers -/

theorem take_min_length {α : Type} (l : List α) (c : Nat) :
    l.take (min c l.length) = l.take c := by
  rcases Nat.le_total c l.length with h | h
  · rw [Nat.min_eq_left h]
  · rw [Nat.min_eq_right h, List.take_length, List.take_of_length_le h]

theorem drop_min_length {α : Type} (l : List α) (c : Nat) :
    l.drop (min c l.length) = l.drop c := by
  rcases Nat.le_total c l.length with h | h
  · rw [Nat.min_eq_left h]
  · rw [Nat.min_eq_right h, List.drop_length, List.drop_eq_nil_of_le h]

/-! ## Splitlines and the per-edit splice -/

theorem splitlinesAux_flatten (l : List Char) :
    ∀ (acc : List Char) (pending : Bool),
      (splitlinesAux l acc pending).flatten =
        acc.reverse ++ (if pending then '\r' :: l else l) := by
  induction l with
  | nil =>
      intro acc pending
      cases pending <;> by_cases h : acc.isEmpty <;>
        simp_all [splitlinesAux, List.isEmpty_iff]
  | cons c rest ih =>
      intro acc pending
      cases pending
      · by_cases h1 : c = '\r'
        · subst h1
          simp [splitlinesAux, ih]
        · by_cases h2 : isLineBreak c <;> simp [splitlinesAux, h1, h2, ih]
      · by_cases h1 : c = '\n'
        · subst h1
          simp [splitlinesAux, ih]
        · by_cases h2 : c = '\r'
          · subst h2
            simp [splitlinesAux, ih]
          · by_cases h3 : isLineBreak c <;> simp [splitlinesAux, h1, h2, h3, ih]

theorem splitlines_flatten (content : List Char) :
    (splitlines content).flatten = content := by
  simpa using splitlinesAux_flatten content [] false

theorem splitlines_eq_nil_iff (content : List Char) :
    splitlines content = [] ↔ content = [] := by
  constructor
  · intro h
    have := splitlines_flatten content
    rw [h] at this
    exact this.symm
  · intro h
    subst h
    rfl

theorem flatten_drop_eq (L : List (List Char)) (n : Nat) (h : n < L.length) :
    (L.drop n).flatten = L.getD n [] ++ (L.drop (n + 1)).flatten := by
  rw [List.drop_eq_getElem_cons h, List.getD_eq_getElem L [] h, List.flatten_cons]

theorem flatten_split_at (L : List (List Char)) (n : Nat) (h : n < L.length) :
    L.flatten = (L.take n).flatten ++ (L.getD n [] ++ (L.drop (n + 1)).flatten) := by
  conv_lhs => rw [← List.take_append_drop n L]
  rw [List.flatten_append, flatten_drop_eq L n h]

theorem take_offset_eq (L : List (List Char)) (n c : Nat) :
    L.flatten.take ((L.take n).flatten.length + min c (L.getD n []).length) =
      (L.take n).flatten ++ (if n < L.length then (L.getD n []).take c else []) := by
  by_cases h : n < L.length
  · rw [flatten_split_at L n h, List.take_append (min c (L.getD n []).length),
      List.take_append_of_le_length (Nat.min_le_right c _), take_min_length, if_pos h]
  · have hlen : L.length ≤ n := Nat.le_of_not_lt h
    rw [List.getD_eq_default L [] hlen, List.take_of_length_le hlen, if_neg h]
    simp

theorem drop_offset_eq (L : List (List Char)) (n c : Nat) :
    L.flatten.drop ((L.take n).flatten.length + min c (L.getD n []).length) =
      (if n < L.length then (L.getD n []).drop c ++ (L.drop (n + 1)).flatten else []) := by
  by_cases h : n < L.length
  · rw [flatten_split_at L n h, List.drop_append (min c (L.getD n []).length),
      List.drop_append_of_le_length (Nat.min_le_right c _), drop_min_length, if_pos h]
  · have hlen : L.length ≤ n := Nat.le_of_not_lt h
    rw [List.getD_eq_default L [] hlen, List.take_of_length_le hlen, if_neg h]
    simp

theorem take_posOffset (content : List Char) (p : Position) :
    content.take (posOffset content p) = beforeText (splitlines content) p := by
  have h := take_offset_eq (splitlines content) p.line p.character
  rw [splitlines_flatten] at h
  simpa [posOffset, beforeText] using h

theorem drop_posOffset (content : List Char) (p : Position) :
    content.drop (posOffset content p) = afterText (splitlines content) p := by
  have h := drop_offset_eq (splitlines content) p.line p.character
  rw [splitlines_flatten] at h
  simpa [posOffset, afterText] using h

theorem beforeText_empty (p : Position) : beforeText [[]] p = [] := by
  obtain ⟨l, ch⟩ := p
  unfold beforeText
  cases l <;> simp

theorem afterText_empty (p : Position) : afterText [[]] p = [] := by
  obtain ⟨l, ch⟩ := p
  unfold afterText
  cases l <;> simp

theorem applyTextEdit_eq_spliceEdit (content : List Char) (e : TextEdit) :
    applyTextEdit content e = spliceEdit content e := by
  by_cases hc : content = []
  · subst hc
    have hlines : editLines [] = [[]] := rfl
    rw [applyTextEdit, spliceEdit, hlines, beforeText_empty, afterText_empty]
    simp
  · have hne : ¬(splitlines content).isEmpty := by
      rw [List.isEmpty_iff]
      exact fun h => hc ((splitlines_eq_nil_iff content).1 h)
    have hlines : editLines content = splitlines content := if_neg hne
    rw [applyTextEdit, spliceEdit, hlines, take_posOffset, drop_posOffset]

theorem foldl_applyTextEdit_eq_foldl_spliceEdit (l : List TextEdit) (c : List Char) :
    l.foldl applyTextEdit c = l.foldl spliceEdit c := by
  induction l generalizing c with
  | nil => rfl
  | cons e es ih => simp [List.foldl_cons, applyTextEdit_eq_spliceEdit, ih]

/-- C1: for every document text and every list of TextEdits expressed against
that text, `_apply_edits_to_file` computes exactly the reference algorithm:
sort the edits by (start line, start character) descending, then fold over
them, splicing at each step the unmodified text before the edit's start with
the replacement and the unmodified text after the edit's end. -/
theorem c1_apply_edits_matches_reference (content : List Char) (edits : List TextEdit) :
    applyEditsToContent content edits = referenceApplyEdits content edits :=
  foldl_applyTextEdit_eq_foldl_spliceEdit (sortEditsDesc edits) content

/-! ## Commutativity of supply order (claim C3) -/

theorem keyLe_total (a b : Nat × Nat) : keyLe a b ∨ keyLe b a := by
  unfold keyLe
  omega

theorem keyLe_antisymm {a b : Nat × Nat} (hab : keyLe a b) (hba : keyLe b a) : a = b := by
  obtain ⟨a1, a2⟩ := a
  obtain ⟨b1, b2⟩ := b
  unfold keyLe at hab hba
  simp only [Prod.mk.injEq]
  omega

theorem sortEditsDesc_pair_comm (e1 e2 : TextEdit) (hne : editKey e1 ≠ editKey e2) :
    sortEditsDesc [e1, e2] = sortEditsDesc [e2, e1] := by
  have h1 : sortEditsDesc [e1, e2] = insertDesc e1 [e2] := rfl
  have h2 : sortEditsDesc [e2, e1] = insertDesc e2 [e1] := rfl
  rw [h1, h2]
  by_cases h12 : keyLe (editKey e2) (editKey e1)
  · by_cases h21 : keyLe (editKey e1) (editKey e2)
    · exact absurd (keyLe_antisymm h21 h12) hne
    · simp [insertDesc, h12, h21]
  · have h21 : keyLe (editKey e1) (editKey e2) :=
      (keyLe_total (editKey e1) (editKey e2)).resolve_right h12
    simp [insertDesc, h12, h21]

/-- C3 counterexample: two insertions (empty ranges) at the same position are
non-overlapping, yet supplying them in the two orders produces different
final texts, because the descending sort is stable and keeps their supplied
order while the later-applied edit splices in front of the earlier one. -/
theorem c3_counterexample :
    disjointEdits (⟨⟨⟨0, 1⟩, ⟨0, 1⟩⟩, ['x']⟩ : TextEdit) (⟨⟨⟨0, 1⟩, ⟨0, 1⟩⟩, ['y']⟩ : TextEdit) ∧
      applyEditsToContent ['a', 'b']
          [⟨⟨⟨0, 1⟩, ⟨0, 1⟩⟩, ['x']⟩, ⟨⟨⟨0, 1⟩, ⟨0, 1⟩⟩, ['y']⟩] ≠
        applyEditsToContent ['a', 'b']
          [⟨⟨⟨0, 1⟩, ⟨0, 1⟩⟩, ['y']⟩, ⟨⟨⟨0, 1⟩, ⟨0, 1⟩⟩, ['x']⟩] := by
  constructor
  · decide
  · decide

/-- C3 (amended): for every document text and every two non-overlapping
TextEdits whose (start line, start character) sort keys differ, applying the
edit set supplied as `[e1, e2]` produces the same final text as supplied as
`[e2, e1]`.  (Equal start keys of non-overlapping edits — only possible when
at least one edit is an insertion at the other's start — are excluded by the
counterexample.) -/
theorem c3_amended_commutes_distinct_starts (content : List Char) (e1 e2 : TextEdit)
    (hdisj : disjointEdits e1 e2) (hne : editKey e1 ≠ editKey e2) :
    applyEditsToContent content [e1, e2] = applyEditsToContent content [e2, e1] := by
  unfold applyEditsToContent
  rw [sortEditsDesc_pair_comm e1 e2 hne]

theorem c3_amended_commutes_distinct_starts_witness :
    disjointEdits (⟨⟨⟨0, 0⟩, ⟨0, 1⟩⟩, ['x']⟩ : TextEdit) (⟨⟨⟨0, 1⟩, ⟨0, 2⟩⟩, ['y']⟩ : TextEdit) ∧
      editKey (⟨⟨⟨0, 0⟩, ⟨0, 1⟩⟩, ['x']⟩ : TextEdit) ≠
        editKey (⟨⟨⟨0, 1⟩, ⟨0, 2⟩⟩, ['y']⟩ : TextEdit) ∧
      applyEditsToContent ['a', 'b']
          [⟨⟨⟨0, 0⟩, ⟨0, 1⟩⟩, ['x']⟩, ⟨⟨⟨0, 1⟩, ⟨0, 2⟩⟩, ['y']⟩] =
        applyEditsToContent ['a', 'b']
          [⟨⟨⟨0, 1⟩, ⟨0, 2⟩⟩, ['y']⟩, ⟨⟨⟨0, 0⟩, ⟨0, 1⟩⟩, ['x']⟩] :=
  ⟨by decide, by decide,
    c3_amended_commutes_distinct_starts ['a', 'b'] _ _ (by decide) (by decide)⟩

/-! ## Decimal rendering and parsing -/

theorem digitChar_toNat (r : Nat) (h : r < 10) : (digitChar r).toNat = 48 + r := by
  interval_cases r <;> rfl

theorem natToDecimalAux_zero (acc : List Char) : natToDecimalAux 0 acc = acc := by
  rw [natToDecimalAux]
  exact dif_pos rfl

theorem natToDecimalAux_pos (n : Nat) (h : n ≠ 0) (acc : List Char) :
    natToDecimalAux n acc = natToDecimalAux (n / 10) (digitChar (n % 10) :: acc) := by
  rw [natToDecimalAux]
  exact dif_neg h

theorem numDigits_zero : numDigits 0 = 0 := by
  rw [numDigits]
  exact dif_pos rfl

theorem numDigits_pos (n : Nat) (h : n ≠ 0) : numDigits n = numDigits (n / 10) + 1 := by
  rw [numDigits]
  exact dif_neg h

theorem natToDecimalAux_shift_bounded :
    ∀ (m n : Nat), n ≤ m → ∀ acc, natToDecimalAux n acc = natToDecimalAux n [] ++ acc := by
  intro m
  induction m with
  | zero =>
      intro n hn acc
      have h0 : n = 0 := by omega
      subst h0
      rw [natToDecimalAux_zero, natToDecimalAux_zero]
      simp
  | succ m ih =>
      intro n hn acc
      by_cases h : n = 0
      · subst h
        rw [natToDecimalAux_zero, natToDecimalAux_zero]
        simp
      · have hlt : n / 10 < n := Nat.div_lt_self (Nat.pos_of_ne_zero h) (by norm_num)
        rw [natToDecimalAux_pos n h acc, natToDecimalAux_pos n h [],
          ih (n / 10) (by omega) (digitChar (n % 10) :: acc),
          ih (n / 10) (by omega) [digitChar (n % 10)]]
        simp

theorem natToDecimalAux_shift (n : Nat) (acc : List Char) :
    natToDecimalAux n acc = natToDecimalAux n [] ++ acc :=
  natToDecimalAux_shift_bounded n n le_rfl acc

theorem natToDecimalAux_digits_bounded :
    ∀ (m n : Nat), n ≤ m → ∀ acc, (∀ c ∈ acc, 48 ≤ c.toNat ∧ c.toNat ≤ 57) →
      ∀ c ∈ natToDecimalAux n acc, 48 ≤ c.toNat ∧ c.toNat ≤ 57 := by
  intro m
  induction m with
  | zero =>
      intro n hn acc hacc
      have h0 : n = 0 := by omega
      subst h0
      rw [natToDecimalAux_zero]
      exact hacc
  | succ m ih =>
      intro n hn acc hacc
      by_cases h : n = 0
      · subst h
        rw [natToDecimalAux_zero]
        exact hacc
      · have hlt : n / 10 < n := Nat.div_lt_self (Nat.pos_of_ne_zero h) (by norm_num)
        rw [natToDecimalAux_pos n h acc]
        refine ih (n / 10) (by omega) (digitChar (n % 10) :: acc) ?_
        intro c hc
        rcases List.mem_cons.mp hc with hc | hc
        · subst hc
          have hr : n % 10 < 10 := Nat.mod_lt _ (by norm_num)
          rw [digitChar_toNat (n % 10) hr]
          omega
        · exact hacc c hc

theorem natToDecimal_digits (n : Nat) :
    ∀ c ∈ natToDecimal n, 48 ≤ c.toNat ∧ c.toNat ≤ 57 := by
  unfold natToDecimal
  by_cases h : n = 0
  · simp [h]
  · rw [if_neg h]
    exact natToDecimalAux_digits_bounded n n le_rfl [] (by simp)

theorem natToDecimal_ne_nil (n : Nat) : natToDecimal n ≠ [] := by
  unfold natToDecimal
  by_cases h : n = 0
  · simp [h]
  · rw [if_neg h, natToDecimalAux_pos n h [], natToDecimalAux_shift]
    simp

theorem parseDecimalAux_append (xs ys : List Char) (v : Nat) :
    parseDecimalAux (xs ++ ys) v =
      match parseDecimalAux xs v with
      | some v2 => parseDecimalAux ys v2
      | none => none := by
  induction xs generalizing v with
  | nil => rfl
  | cons c cs ih =>
      by_cases hd : 48 ≤ c.toNat ∧ c.toNat ≤ 57
      · simp [parseDecimalAux, hd, ih]
      · simp [parseDecimalAux, hd]

theorem parse_natToDecimalAux_bounded :
    ∀ (m n : Nat), n ≤ m → ∀ v,
      parseDecimalAux (natToDecimalAux n []) v = some (v * 10 ^ numDigits n + n) := by
  intro m
  induction m with
  | zero =>
      intro n hn v
      have h0 : n = 0 := by omega
      subst h0
      rw [natToDecimalAux_zero, numDigits_zero]
      simp [parseDecimalAux]
  | succ m ih =>
      intro n hn v
      by_cases h : n = 0
      · subst h
        rw [natToDecimalAux_zero, numDigits_zero]
        simp [parseDecimalAux]
      · have hlt : n / 10 < n := Nat.div_lt_self (Nat.pos_of_ne_zero h) (by norm_num)
        have hr : n % 10 < 10 := Nat.mod_lt _ (by norm_num)
        rw [natToDecimalAux_pos n h [], natToDecimalAux_shift, parseDecimalAux_append,
          ih (n / 10) (by omega) v]
        have hdig : 48 ≤ (digitChar (n % 10)).toNat ∧ (digitChar (n % 10)).toNat ≤ 57 := by
          rw [digitChar_toNat (n % 10) hr]
          omega
        simp only [parseDecimalAux, if_pos hdig]
        rw [digitChar_toNat (n % 10) hr, numDigits_pos n h]
        have hmod : 10 * (n / 10) + n % 10 = n := Nat.div_add_mod n 10
        have harith : (v * 10 ^ numDigits (n / 10) + n / 10) * 10 + (48 + n % 10 - 48) =
            v * 10 ^ (numDigits (n / 10) + 1) + n := by
          have hsub : 48 + n % 10 - 48 = n % 10 := by omega
          calc (v * 10 ^ numDigits (n / 10) + n / 10) * 10 + (48 + n % 10 - 48)
              = v * (10 ^ numDigits (n / 10) * 10) + (10 * (n / 10) + n % 10) := by
                rw [hsub]
                ring
            _ = v * 10 ^ (numDigits (n / 10) + 1) + n := by
                rw [pow_succ, hmod]
        rw [harith]

theorem parseDecimal_natToDecimal (n : Nat) :
    parseDecimal (natToDecimal n) = some n := by
  by_cases h : n = 0
  · subst h
    decide
  · rcases hl : natToDecimal n with _ | ⟨c, cs⟩
    · exact absurd hl (natToDecimal_ne_nil n)
    · have h2 : parseDecimal (c :: cs) = parseDecimalAux (natToDecimal n) 0 := by
        rw [hl]
        rfl
      rw [h2]
      unfold natToDecimal
      rw [if_neg h, parse_natToDecimalAux_bounded n n le_rfl 0]
      simp

/-! ## Header-line processing -/

theorem isPySpace_lt (c : Char) (h : isPySpace c = true) : c.toNat < 48 := by
  unfold isPySpace at h
  simp only [Bool.or_eq_true, beq_iff_eq] at h
  rcases h with ((((h | h) | h) | h) | h) | h <;> omega

theorem isPySpace_digit_false (c : Char) (h : 48 ≤ c.toNat) : isPySpace c = false := by
  cases hb : isPySpace c
  · rfl
  · exact absurd (isPySpace_lt c hb) (by omega)

theorem dropWhile_cons_false {p : Char → Bool} {c : Char} (l : List Char) (h : p c = false) :
    List.dropWhile p (c :: l) = c :: l := by
  simp [List.dropWhile_cons, h]

theorem dropWhile_append_of_all (p : Char → Bool) (a b : List Char)
    (h : ∀ x ∈ a, p x = true) : List.dropWhile p (a ++ b) = List.dropWhile p b := by
  induction a with
  | nil => rfl
  | cons c cs ih =>
      rw [List.cons_append, List.dropWhile_cons, if_pos (h c (List.mem_cons_self c cs))]
      exact ih fun x hx => h x (List.mem_cons_of_mem _ hx)

theorem dropWhile_append_of_ne (p : Char → Bool) (a b : List Char)
    (h : List.dropWhile p a ≠ []) :
    List.dropWhile p (a ++ b) = List.dropWhile p a ++ b := by
  induction a with
  | nil => exact absurd rfl h
  | cons c cs ih =>
      by_cases hc : p c = true
      · rw [List.cons_append, List.dropWhile_cons, if_pos hc]
        rw [List.dropWhile_cons, if_pos hc] at h ⊢
        exact ih h
      · rw [List.cons_append, List.dropWhile_cons, if_neg hc,
          List.dropWhile_cons, if_neg hc, List.cons_append]

theorem strip_of_ends (l : List Char)
    (h1 : ∃ c cs, l = c :: cs ∧ isPySpace c = false)
    (h2 : ∃ d ds2, l.reverse = d :: ds2 ∧ isPySpace d = false) : strip l = l := by
  obtain ⟨c, cs, hl, hc⟩ := h1
  obtain ⟨d, ds2, hr, hd2⟩ := h2
  unfold strip
  rw [hl, dropWhile_cons_false cs hc, ← hl, hr, dropWhile_cons_false ds2 hd2, ← hr,
    List.reverse_reverse]

theorem strip_cons_space (c : Char) (hc : isPySpace c = true) (l : List Char) :
    strip (c :: l) = strip l := by
  unfold strip
  rw [List.dropWhile_cons, if_pos hc]

theorem strip_append_sp (l sp2 : List Char) (hsp : ∀ x ∈ sp2, isPySpace x = true)
    (hl : List.dropWhile isPySpace l ≠ []) :
    strip (l ++ sp2) = strip l := by
  unfold strip
  rw [dropWhile_append_of_ne _ _ _ hl, List.reverse_append,
    dropWhile_append_of_all _ _ _ (fun x hx => hsp x (by simpa using hx))]

theorem digits_strip_self (ds : List Char) (hne : ds ≠ [])
    (hd : ∀ c ∈ ds, 48 ≤ c.toNat ∧ c.toNat ≤ 57) : strip ds = ds := by
  refine strip_of_ends ds ?_ ?_
  · rcases hds : ds with _ | ⟨c, cs⟩
    · exact absurd hds hne
    · refine ⟨c, cs, rfl, isPySpace_digit_false c ?_⟩
      exact (hd c (hds ▸ List.mem_cons_self c cs)).1
  · rcases hrv : ds.reverse with _ | ⟨d, ds2⟩
    · exact absurd (List.reverse_eq_nil_iff.mp hrv) hne
    · refine ⟨d, ds2, rfl, isPySpace_digit_false d ?_⟩
      have hmem : d ∈ ds := by
        have : d ∈ ds.reverse := hrv ▸ List.mem_cons_self d ds2
        simpa using this
      exact (hd d hmem).1

theorem strip_space_digits (ds : List Char) (hne : ds ≠ [])
    (hd : ∀ c ∈ ds, 48 ≤ c.toNat ∧ c.toNat ≤ 57) : strip (' ' :: ds) = ds := by
  rw [strip_cons_space ' ' rfl ds, digits_strip_self ds hne hd]

theorem strip_cl_line (ds : List Char) (hne : ds ≠ [])
    (hd : ∀ c ∈ ds, 48 ≤ c.toNat ∧ c.toNat ≤ 57) :
    strip (clHeader ++ ds ++ ['\r', '\n']) = clHeader ++ ds := by
  have hC : clHeader ++ ds = 'C' :: (clHeader.tail ++ ds) := rfl
  have hdw : List.dropWhile isPySpace (clHeader ++ ds) ≠ [] := by
    rw [hC, dropWhile_cons_false _ rfl]
    exact List.cons_ne_nil _ _
  rw [strip_append_sp (clHeader ++ ds) ['\r', '\n'] (by decide) hdw]
  refine strip_of_ends _ ⟨'C', clHeader.tail ++ ds, hC, rfl⟩ ?_
  rcases hrv : ds.reverse with _ | ⟨d, ds2⟩
  · exact absurd (List.reverse_eq_nil_iff.mp hrv) hne
  · refine ⟨d, ds2 ++ clHeader.reverse, ?_, isPySpace_digit_false d ?_⟩
    · rw [List.reverse_append, hrv, List.cons_append]
    · have hmem : d ∈ ds := by
        have : d ∈ ds.reverse := hrv ▸ List.mem_cons_self d ds2
        simpa using this
      exact (hd d hmem).1

theorem lowerTakeEq_cl (ds : List Char) :
    lowerTakeEq (clHeader ++ ds) clPattern = true := by
  unfold lowerTakeEq
  rw [List.map_append]
  have hlen : clPattern.length ≤ (clHeader.map Char.toLower).length := by
    rw [List.length_map]
    decide
  rw [List.take_append_of_le_length hlen]
  decide

theorem splitOnChar_not_mem (sep : Char) :
    ∀ l : List Char, sep ∉ l → splitOnChar sep l = [l] := by
  intro l
  induction l with
  | nil => intro _; rfl
  | cons c cs ih =>
      intro h
      have hc : ¬(c = sep) := fun hh => h (List.mem_cons.mpr (Or.inl hh.symm))
      have hcs : sep ∉ cs := fun hh => h (List.mem_cons_of_mem _ hh)
      simp [splitOnChar, hc, ih hcs]

theorem splitOnChar_append (sep : Char) :
    ∀ A B : List Char, sep ∉ A →
      splitOnChar sep (A ++ sep :: B) = A :: splitOnChar sep B := by
  intro A
  induction A with
  | nil => intro B _; simp [splitOnChar]
  | cons a A2 ih =>
      intro B h
      have ha : ¬(a = sep) := fun hh => h (List.mem_cons.mpr (Or.inl hh.symm))
      have hA2 : sep ∉ A2 := fun hh => h (List.mem_cons_of_mem _ hh)
      rw [List.cons_append]
      simp [splitOnChar, ha, ih B hA2]

/-! ## The header loop on a well-formed frame -/

theorem readHeadersSM_line (lc : List Char) (h : '\n' ∉ lc) :
    ∀ (acc : List Char) (cl : Nat) (rest : List Char),
      readHeadersSM (lc ++ '\n' :: rest) acc cl =
        match processHeaderLine (acc.reverse ++ (lc ++ ['\n'])) cl with
        | .fail => .fail
        | .brk n => .ok n rest
        | .next n => readHeadersSM rest [] n := by
  induction lc with
  | nil =>
      intro acc cl rest
      simp [readHeadersSM]
  | cons c cs ih =>
      intro acc cl rest
      have hc : ¬(c = '\n') := fun hh => h (List.mem_cons.mpr (Or.inl hh.symm))
      have hcs : '\n' ∉ cs := fun hh => h (List.mem_cons_of_mem _ hh)
      rw [List.cons_append, readHeadersSM, if_neg hc, ih hcs (c :: acc) cl rest]
      have heq : (c :: acc).reverse ++ (cs ++ ['\n']) = acc.reverse ++ (c :: cs ++ ['\n']) := by
        simp
      rw [heq]

theorem processHeaderLine_cl (b cl : Nat) :
    processHeaderLine (clHeader ++ natToDecimal b ++ ['\r', '\n']) cl = .next b := by
  have hne := natToDecimal_ne_nil b
  have hdig := natToDecimal_digits b
  have hany : (clHeader ++ natToDecimal b ++ ['\r', '\n']).any (fun c => 128 ≤ c.toNat) =
      false := by
    rw [List.any_eq_false]
    intro x hx
    simp only [List.mem_append] at hx
    rcases hx with (hx | hx) | hx
    · have : ∀ y ∈ clHeader, y.toNat < 128 := by decide
      simpa using this x hx
    · have := (hdig x hx).2
      simp only [decide_eq_true_eq]
      omega
    · have : ∀ y ∈ ['\r', '\n'], y.toNat < 128 := by decide
      simpa using this x hx
  have hstrip := strip_cl_line (natToDecimal b) hne hdig
  have hlow := lowerTakeEq_cl (natToDecimal b)
  have hsplit : splitOnChar ':' (clHeader ++ natToDecimal b) =
      [clName, ' ' :: natToDecimal b] := by
    have hshape : clHeader ++ natToDecimal b = clName ++ ':' :: (' ' :: natToDecimal b) := by
      simp [clHeader]
    rw [hshape, splitOnChar_append ':' clName _ (by decide),
      splitOnChar_not_mem ':' (' ' :: natToDecimal b) ?_]
    intro hmem
    rcases List.mem_cons.mp hmem with hm | hm
    · exact absurd hm (by decide)
    · have h1 := (hdig ':' hm).2
      have h2 : (':').toNat = 58 := rfl
      omega
  have hiE : (clHeader ++ natToDecimal b).isEmpty = false := rfl
  unfold processHeaderLine
  rw [hany, if_neg (by simp), hstrip, hiE, if_neg (by simp), hlow, if_pos rfl, hsplit]
  have hgd : ([clName, ' ' :: natToDecimal b].getD 1 []) = ' ' :: natToDecimal b := rfl
  rw [hgd, strip_space_digits (natToDecimal b) hne hdig, parseDecimal_natToDecimal b]

theorem processHeaderLine_crlf (cl : Nat) : processHeaderLine ['\r', '\n'] cl = .brk cl :=
  rfl

/-- C2: the framer's encoder emits a `Content-Length` header declaring
exactly the byte length of the encoded body followed by a blank line and the
body, and decoding the emitted frame yields the original message, for every
message whose JSON codec round-trips and whose body is non-empty (Python's
`json.dumps` never returns an empty string). -/
theorem c2_frame_roundtrip {M : Type} (dumps : M → List Char) (loads : List Char → Option M)
    (m : M) (hrt : loads (dumps m) = some m) (hne : dumps m ≠ []) :
    readHeadersSM (writeMessage dumps m) [] 0 =
        HeaderResult.ok (dumps m).length (dumps m) ∧
      readMessage loads (writeMessage dumps m) = ReadResult.msg m [] := by
  have hb : (dumps m).length ≠ 0 := fun hh => hne (List.length_eq_zero.mp hh)
  have hnl : '\n' ∉ clHeader ++ natToDecimal (dumps m).length ++ ['\r'] := by
    intro hmem
    simp only [List.mem_append] at hmem
    rcases hmem with (hm | hm) | hm
    · exact absurd hm (by decide)
    · have h1 := (natToDecimal_digits (dumps m).length '\n' hm).1
      have h2 : ('\n').toNat = 10 := rfl
      omega
    · exact absurd hm (by decide)
  have hsm : readHeadersSM (writeMessage dumps m) [] 0 =
      HeaderResult.ok (dumps m).length (dumps m) := by
    have hshape : writeMessage dumps m =
        (clHeader ++ natToDecimal (dumps m).length ++ ['\r']) ++
          '\n' :: ('\r' :: '\n' :: dumps m) := by
      unfold writeMessage
      simp
    rw [hshape, readHeadersSM_line _ hnl]
    have hline : ([] : List Char).reverse ++
        ((clHeader ++ natToDecimal (dumps m).length ++ ['\r']) ++ ['\n']) =
        clHeader ++ natToDecimal (dumps m).length ++ ['\r', '\n'] := by
      simp
    rw [hline, processHeaderLine_cl]
    show readHeadersSM ('\r' :: '\n' :: dumps m) [] (dumps m).length =
      HeaderResult.ok (dumps m).length (dumps m)
    rw [show ('\r' :: '\n' :: dumps m) = ['\r'] ++ '\n' :: dumps m from rfl,
      readHeadersSM_line ['\r'] (by decide)]
    rfl
  refine ⟨hsm, ?_⟩
  unfold readMessage
  rw [hsm]
  simp only [if_neg hb, if_neg (lt_irrefl (dumps m).length), List.take_length, hrt,
    List.drop_length]

theorem c2_frame_roundtrip_witness :
    readMessage some (writeMessage id ['x']) = ReadResult.msg ['x'] [] :=
  (c2_frame_roundtrip id some ['x'] rfl (by decide)).2

/-! ## Zero-length bodies and the reader loop (claim C8) -/

/-- C8 counterexample: on a frame declaring `Content-Length: 0`,
`_read_message` does report "no message" (`None`), but `_read_responses`
breaks out of its loop on `None` instead of resuming: with a valid frame
following the zero-length one, the loop dispatches nothing, although the
valid frame alone would have been dispatched. -/
theorem c8_counterexample :
    readMessage some ("Content-Length: 0\r\n\r\nContent-Length: 1\r\n\r\nx".toList) =
        ReadResult.noMsg ∧
      readLoop some 5 ("Content-Length: 0\r\n\r\nContent-Length: 1\r\n\r\nx".toList) = [] ∧
      readLoop some 5 ("Content-Length: 1\r\n\r\nx".toList) = ["x".toList] := by
  refine ⟨?_, ?_, ?_⟩
  · decide
  · decide
  · decide

/-- C8 (amended): when a decoded frame declares a zero-length body, the
framer reports "no message", and the reading caller thereupon terminates the
read loop without error — the same path as end of stream — dispatching no
further messages. -/
theorem c8_amended_noMsg_terminates_loop {M : Type} (loads : List Char → Option M)
    (stream : List Char) (fuel : Nat) (h : readMessage loads stream = ReadResult.noMsg) :
    readLoop loads (fuel + 1) stream = [] := by
  unfold readLoop
  rw [h]

theorem c8_amended_noMsg_terminates_loop_witness :
    readLoop some (4 + 1) ("Content-Length: 0\r\n\r\nContent-Length: 1\r\n\r\nx".toList) =
      ([] : List (List Char)) :=
  c8_amended_noMsg_terminates_loop some _ 4 (by decide)

/-! ## Request ids and send ordering (claim C4) -/

theorem sendMany_spec (ms : List String) :
    ∀ st : SessionState,
      (sendMany st ms).ids = List.range' (st.requestId + 1) ms.length ∧
      (sendMany st ms).events = expectedTrace st.requestId ms := by
  induction ms with
  | nil =>
      intro st
      exact ⟨rfl, rfl⟩
  | cons mthd rest ih =>
      intro st
      obtain ⟨h1, h2⟩ := ih (sendRequest st mthd).1
      constructor
      · show (sendRequest st mthd).2.1 :: (sendMany (sendRequest st mthd).1 rest).ids =
          List.range' (st.requestId + 1) (rest.length + 1)
        rw [h1, List.range'_succ (st.requestId + 1) rest.length 1]
        rfl
      · show (sendRequest st mthd).2.2 ++ (sendMany (sendRequest st mthd).1 rest).events =
          expectedTrace st.requestId (mthd :: rest)
        rw [h2]
        rfl

theorem expectedTrace_write_preceded (ms : List String) :
    ∀ (k i j : Nat) (mthd : String),
      (expectedTrace k ms).get? j = some (Event.writeFrame i mthd) →
      ∃ j2, j2 < j ∧ (expectedTrace k ms).get? j2 = some (Event.insertPending i) := by
  induction ms with
  | nil =>
      intro k i j mthd h
      simp [expectedTrace] at h
  | cons mthd0 rest ih =>
      intro k i j mthd h
      match j with
      | 0 =>
          rw [expectedTrace] at h
          simp at h
      | 1 =>
          rw [expectedTrace] at h
          simp at h
          refine ⟨0, by omega, ?_⟩
          rw [expectedTrace]
          simp [h.1]
      | j2 + 2 =>
          rw [expectedTrace] at h
          have h2 : (expectedTrace (k + 1) rest).get? j2 = some (Event.writeFrame i mthd) := h
          obtain ⟨j3, hlt, hj3⟩ := ih (k + 1) i j2 mthd h2
          refine ⟨j3 + 2, by omega, ?_⟩
          rw [expectedTrace]
          exact hj3

/-- C4: within one session, the n-th request sent is assigned id n (ids are
1-based, strictly increasing, never reused), and for every request the
pending entry is inserted into `_pending_requests` strictly before the framed
bytes are written to the transport. -/
theorem c4_ids_monotone_insert_before_write (ms : List String) :
    (sendMany initialSession ms).ids = List.range' 1 ms.length ∧
      ∀ (i j : Nat) (mthd : String),
        (sendMany initialSession ms).events.get? j = some (Event.writeFrame i mthd) →
        ∃ j2, j2 < j ∧
          (sendMany initialSession ms).events.get? j2 = some (Event.insertPending i) := by
  obtain ⟨h1, h2⟩ := sendMany_spec ms initialSession
  refine ⟨h1, ?_⟩
  intro i j mthd h
  rw [h2] at h ⊢
  exact expectedTrace_write_preceded ms 0 i j mthd h

theorem c4_ids_monotone_insert_before_write_witness :
    (sendMany initialSession ["initialize", "shutdown"]).ids = List.range' 1 2 ∧
      ∃ j2, j2 < 3 ∧
        (sendMany initialSession ["initialize", "shutdown"]).events.get? j2 =
          some (Event.insertPending 2) :=
  ⟨(c4_ids_monotone_insert_before_write ["initialize", "shutdown"]).1,
    (c4_ids_monotone_insert_before_write ["initialize", "shutdown"]).2 2 3 "shutdown"
      (by decide)⟩

/-! ## Response correlation (claim C5) -/

theorem lookup_eq_none_of_not_mem {l : List (Nat × Bool)} {a : Nat}
    (h : a ∉ l.map Prod.fst) : List.lookup a l = none := by
  induction l with
  | nil => rfl
  | cons p rest ih =>
      obtain ⟨k, v⟩ := p
      simp only [List.map_cons, List.mem_cons] at h
      push_neg at h
      simp [List.lookup, beq_eq_false_iff_ne.mpr h.1, ih h.2]

theorem lookup_some_mem {l : List (Nat × Bool)} {a : Nat} {b : Bool}
    (h : List.lookup a l = some b) : (a, b) ∈ l := by
  induction l with
  | nil => simp [List.lookup] at h
  | cons p rest ih =>
      obtain ⟨k, v⟩ := p
      by_cases hak : a = k
      · subst hak
        simp [List.lookup] at h
        subst h
        exact List.mem_cons_self _ _
      · simp only [List.lookup, beq_eq_false_iff_ne.mpr hak] at h
        exact List.mem_cons_of_mem _ (ih h)

theorem lookup_exists_of_mem_keys {l : List (Nat × Bool)} {a : Nat}
    (h : a ∈ l.map Prod.fst) : ∃ b, List.lookup a l = some b := by
  induction l with
  | nil => simp at h
  | cons p rest ih =>
      obtain ⟨k, v⟩ := p
      by_cases hak : a = k
      · exact ⟨v, by simp [List.lookup, hak]⟩
      · simp only [List.map_cons, List.mem_cons] at h
        rcases h with h | h
        · exact absurd h hak
        · obtain ⟨b, hb⟩ := ih h
          exact ⟨b, by simp [List.lookup, beq_eq_false_iff_ne.mpr hak, hb]⟩

theorem mem_keys_filter_ne {l : List (Nat × Bool)} {a x : Nat} (hx : x ≠ a) :
    x ∈ (l.filter (fun p => p.1 != a)).map Prod.fst ↔ x ∈ l.map Prod.fst := by
  simp only [List.mem_map, List.mem_filter]
  constructor
  · rintro ⟨p, ⟨hp, _⟩, he⟩
    exact ⟨p, hp, he⟩
  · rintro ⟨p, hp, he⟩
    exact ⟨p, ⟨hp, by simp [he, hx]⟩, he⟩

theorem foldl_handleMessage_spec (msgs : List InMessage) :
    ∀ st : SessionState,
      (pendingIds st).Nodup →
      (∀ p ∈ st.pending, p.2 = false) →
      (∀ mg ∈ msgs, mg.hasId = some (msgId mg) ∧ mg.hasMethod = none) →
      (msgs.map msgId).Nodup →
      (msgs.foldl handleMessage st).resolved =
          st.resolved ++ (msgs.filter (fun mg => decide (msgId mg ∈ pendingIds st))).map
            (fun mg => (msgId mg, outcomeOf mg)) ∧
        (msgs.foldl handleMessage st).pending =
          st.pending.filter (fun p => decide (p.1 ∉ msgs.map msgId)) := by
  induction msgs with
  | nil =>
      intro st _ _ _ _
      simp
  | cons mg msgs ih =>
      intro st hkeys hnotdone hshape hdistinct
      obtain ⟨hid, hmeth⟩ := hshape mg (List.mem_cons_self _ _)
      have hshape2 : ∀ x ∈ msgs, x.hasId = some (msgId x) ∧ x.hasMethod = none :=
        fun x hx => hshape x (List.mem_cons_of_mem _ hx)
      have hdc : (msgId mg :: msgs.map msgId).Nodup := by simpa using hdistinct
      obtain ⟨hnotin, hdist2⟩ := List.nodup_cons.mp hdc
      rw [List.foldl_cons]
      by_cases hmem : msgId mg ∈ pendingIds st
      · obtain ⟨b, hb⟩ := lookup_exists_of_mem_keys hmem
        have hbf : b = false := hnotdone _ (lookup_some_mem hb)
        subst hbf
        have hstep : handleMessage st mg =
            { st with
                pending := st.pending.filter (fun p => p.1 != msgId mg),
                resolved := st.resolved ++ [(msgId mg, outcomeOf mg)] } := by
          simp [handleMessage, hid, hmeth, hb]
        rw [hstep]
        have hkeys2 : (pendingIds
            { st with
                pending := st.pending.filter (fun p => p.1 != msgId mg),
                resolved := st.resolved ++ [(msgId mg, outcomeOf mg)] }).Nodup :=
          List.Nodup.sublist (List.Sublist.map Prod.fst (List.filter_sublist _)) hkeys
        have hnd2 : ∀ p ∈ st.pending.filter (fun p => p.1 != msgId mg), p.2 = false :=
          fun p hp => hnotdone p (List.mem_of_mem_filter hp)
        obtain ⟨ih1, ih2⟩ := ih _ hkeys2 hnd2 hshape2 hdist2
        constructor
        · rw [ih1]
          have hfc : msgs.filter (fun x => decide (msgId x ∈ pendingIds
                { st with
                    pending := st.pending.filter (fun p => p.1 != msgId mg),
                    resolved := st.resolved ++ [(msgId mg, outcomeOf mg)] })) =
              msgs.filter (fun x => decide (msgId x ∈ pendingIds st)) := by
            apply List.filter_congr
            intro x hx
            have hxne : msgId x ≠ msgId mg :=
              fun he => hnotin (he ▸ List.mem_map_of_mem msgId hx)
            rw [decide_eq_decide]
            exact mem_keys_filter_ne hxne
          rw [hfc, List.filter_cons_of_pos (by simpa using hmem)]
          simp
        · rw [ih2]
          show (st.pending.filter (fun p => p.1 != msgId mg)).filter
              (fun p => decide (p.1 ∉ msgs.map msgId)) = _
          rw [List.filter_filter]
          apply List.filter_congr
          intro p hp
          by_cases h1 : p.1 = msgId mg
          · simp [h1]
          · by_cases h2 : p.1 ∈ msgs.map msgId
            · simp [h1, h2]
            · simp [h1, h2]
      · have hnone : List.lookup (msgId mg) st.pending = none :=
          lookup_eq_none_of_not_mem hmem
        have hstep : handleMessage st mg = st := by
          simp [handleMessage, hid, hmeth, hnone]
        rw [hstep]
        obtain ⟨ih1, ih2⟩ := ih st hkeys hnotdone hshape2 hdist2
        constructor
        · rw [ih1, List.filter_cons_of_neg (by simpa using hmem)]
        · rw [ih2]
          apply List.filter_congr
          intro p hp
          have hpne : p.1 ≠ msgId mg :=
            fun he => hmem (he ▸ List.mem_map_of_mem Prod.fst hp)
          rw [decide_eq_decide]
          simp [List.mem_cons, hpne]

/-- C5: for every set of pending requests with distinct ids (all futures
still unresolved, as `_send_request` creates them) and every batch of
response frames with distinct ids — in whatever arrival order — folding the
inbound dispatch resolves exactly the pending entry each frame's id names
(as an error when the frame carries an error payload, otherwise with the
result), removes exactly those entries, and no entry is ever fulfilled
twice.  The right-hand sides depend only on which ids occur, not on the
arrival order, which is universally quantified via `msgs`. -/
theorem c5_responses_resolve_matching_entries (st : SessionState) (msgs : List InMessage)
    (hkeys : (pendingIds st).Nodup)
    (hnotdone : ∀ p ∈ st.pending, p.2 = false)
    (hshape : ∀ mg ∈ msgs, mg.hasId = some (msgId mg) ∧ mg.hasMethod = none)
    (hdistinct : (msgs.map msgId).Nodup) :
    (msgs.foldl handleMessage st).resolved =
        st.resolved ++ (msgs.filter (fun mg => decide (msgId mg ∈ pendingIds st))).map
          (fun mg => (msgId mg, outcomeOf mg)) ∧
      (msgs.foldl handleMessage st).pending =
        st.pending.filter (fun p => decide (p.1 ∉ msgs.map msgId)) ∧
      ((msgs.filter (fun mg => decide (msgId mg ∈ pendingIds st))).map msgId).Nodup := by
  obtain ⟨h1, h2⟩ := foldl_handleMessage_spec msgs st hkeys hnotdone hshape hdistinct
  exact ⟨h1, h2,
    List.Nodup.sublist (List.Sublist.map msgId (List.filter_sublist _)) hdistinct⟩

theorem c5_responses_resolve_matching_entries_witness :
    ([⟨some 2, none, some "boom", none⟩,
        ⟨some 1, none, none, some "ok"⟩].foldl handleMessage
        ⟨2, [(1, false), (2, false)], [], true⟩).resolved =
      [(2, Outcome.error "boom"), (1, Outcome.result (some "ok"))] ∧
    ([⟨some 2, none, some "boom", none⟩,
        ⟨some 1, none, none, some "ok"⟩].foldl handleMessage
        ⟨2, [(1, false), (2, false)], [], true⟩).pending = [] := by
  obtain ⟨h1, h2, -⟩ := c5_responses_resolve_matching_entries
    ⟨2, [(1, false), (2, false)], [], true⟩
    [⟨some 2, none, some "boom", none⟩, ⟨some 1, none, none, some "ok"⟩]
    (by decide) (by decide) (by decide) (by decide)
  exact ⟨h1.trans (by decide), h2.trans (by decide)⟩

/-! ## Timeout path (claim C6) -/

/-- C6: when a request times out, the caller receives the timeout failure,
the entry is removed from the correlation table, and a late-arriving response
carrying that id is dropped: dispatching it leaves the session state exactly
unchanged, resolving no entry. -/
theorem c6_timeout_removes_entry_and_drops_late_response (st : SessionState) (rid : Nat)
    (err res : Option String) :
    (timeoutRequest st rid).resolved = st.resolved ++ [(rid, Outcome.timeout)] ∧
      rid ∉ pendingIds (timeoutRequest st rid) ∧
      handleMessage (timeoutRequest st rid) (responseMsg rid err res) =
        timeoutRequest st rid := by
  have hnot : rid ∉ (timeoutRequest st rid).pending.map Prod.fst := by
    intro hmem
    simp only [timeoutRequest, List.mem_map, List.mem_filter] at hmem
    obtain ⟨p, ⟨_, hne⟩, he⟩ := hmem
    exact absurd he (by simpa using hne)
  refine ⟨rfl, hnot, ?_⟩
  have hnone : List.lookup rid (timeoutRequest st rid).pending = none :=
    lookup_eq_none_of_not_mem hnot
  simp [handleMessage, responseMsg, hnone]

/-! ## Stop and the correlation table (claim C7) -/

/-- C7 counterexample: a session stopped while an entry is still pending
keeps that entry in the correlation table and delivers no outcome for it —
`stop` never touches `_pending_requests`, so no "session stopped" failure
exists. -/
theorem c7_counterexample :
    (stop ⟨5, [(3, false)], [], true⟩).pending = [(3, false)] ∧
      (stop ⟨5, [(3, false)], [], true⟩).resolved = [] := by
  decide

/-- C7 (amended): stopping the session leaves the correlation table and the
delivered outcomes exactly unchanged: entries still pending at that moment
stay pending and are not failed; their callers are released only by their own
per-request timeouts. -/
theorem c7_amended_stop_leaves_pending_untouched (st : SessionState) :
    (stop st).pending = st.pending ∧ (stop st).resolved = st.resolved :=
  ⟨rfl, rfl⟩

/-! ## Diagnostics cache replacement (claim C9) -/

/-- C9: a diagnostics-published notification wholesale replaces the cached
set for its URI with exactly the carried diagnostics (including the empty
set), and leaves the cached set of every other URI untouched. -/
theorem c9_publish_replaces_wholesale (cache : DiagCache) (uri : String)
    (ds : List Diagnostic) :
    handleServerMessage cache (ServerNote.publish uri ds) uri = ds ∧
      ∀ u : String, u ≠ uri →
        handleServerMessage cache (ServerNote.publish uri ds) u = cache u := by
  constructor
  · simp [handleServerMessage]
  · intro u hu
    simp [handleServerMessage, hu]

theorem c9_publish_replaces_wholesale_witness :
    handleServerMessage (fun _ => [⟨⟨⟨0, 0⟩, ⟨0, 5⟩⟩, "old", some 1, none, none⟩])
        (ServerNote.publish "file:///a.py" []) "file:///a.py" = [] ∧
      handleServerMessage (fun _ => [⟨⟨⟨0, 0⟩, ⟨0, 5⟩⟩, "old", some 1, none, none⟩])
        (ServerNote.publish "file:///a.py" []) "file:///b.py" =
        [⟨⟨⟨0, 0⟩, ⟨0, 5⟩⟩, "old", some 1, none, none⟩] :=
  ⟨(c9_publish_replaces_wholesale (fun _ => [⟨⟨⟨0, 0⟩, ⟨0, 5⟩⟩, "old", some 1, none, none⟩])
      "file:///a.py" []).1,
    (c9_publish_replaces_wholesale (fun _ => [⟨⟨⟨0, 0⟩, ⟨0, 5⟩⟩, "old", some 1, none, none⟩])
      "file:///a.py" []).2 "file:///b.py" (by decide)⟩

/-! ## `get_all_edits` mutates its receiver (claim C10) -/

/-- C10 is violated by the code: `result = dict(self.changes)` is a shallow
copy, so for a URI present both in `changes` and in a `TextDocumentEdit`,
`result[uri].extend(...)` extends the very list object stored in
`self.changes` — after the call `changes` has gained that document's edits.
This theorem evaluates the model at the failing input: before the call
`changes["u"]` holds one edit, after the call it holds two. -/
theorem c10_get_all_edits_mutates_changes :
    (get_all_edits ⟨[("u", [⟨⟨⟨0, 0⟩, ⟨0, 1⟩⟩, ['x']⟩])],
        [⟨"u", [⟨⟨⟨1, 0⟩, ⟨1, 1⟩⟩, ['y']⟩]⟩]⟩).2.changes =
      [("u", [⟨⟨⟨0, 0⟩, ⟨0, 1⟩⟩, ['x']⟩, ⟨⟨⟨1, 0⟩, ⟨1, 1⟩⟩, ['y']⟩])] ∧
    (⟨[("u", [⟨⟨⟨0, 0⟩, ⟨0, 1⟩⟩, ['x']⟩])],
        [⟨"u", [⟨⟨⟨1, 0⟩, ⟨1, 1⟩⟩, ['y']⟩]⟩]⟩ : WorkspaceEdit).changes =
      [("u", [⟨⟨⟨0, 0⟩, ⟨0, 1⟩⟩, ['x']⟩])] := by
  decide
